import Mathlib

/-!
Verification of the `luhcli` argument-resolution engine (`src/lib.rs`).

The definitions below are a shallow embedding of the Rust source:
`ArgType`, `Arg`, `ArgChain`, `ParsedArgs`, `Command::get_active_args` and
`Command::parse` are translated function-by-function.  Rust `HashMap`s are
modelled as association lists where an insert prepends the new binding and a
lookup returns the most recent binding, matching `HashMap::insert`'s
overwrite semantics as observed through `get`.  Rust's fallible control flow
(`return Err(..)`) is modelled with `Except`.
-/

set_option maxRecDepth 4000

namespace Luhcli

/-- Mirrors `enum ArgType` in the source: Flag, Option (value-taking flag),
Positional (with its index) or Variadic. -/
inductive ArgType : Type where
  | flag : ArgType
  | option : ArgType
  | positional (index : Nat) : ArgType
  | variadic : ArgType
deriving DecidableEq

mutual

/-- Mirrors `struct Arg`: name, type, short/long aliases, help text, required
bit, dependency and conflict lists, default value, allowed values and
conditional child chains. -/
inductive Arg : Type where
  | mk
    (name : String)
    (arg_type : ArgType)
    (short : Option Char)
    (long : Option String)
    (help : String)
    (required : Bool)
    (depends_on : List String)
    (conflicts_with : List String)
    (default_value : Option String)
    (possible_values : List String)
    (children : List ArgChain) : Arg

/-- Mirrors `struct ArgChain`: a trigger value plus the arguments that become
active when the parent positional argument equals the trigger. -/
inductive ArgChain : Type where
  | mk (when_value : String) (args : List Arg) : ArgChain

end

def Arg.name : Arg → String
  | .mk n _ _ _ _ _ _ _ _ _ _ => n

def Arg.arg_type : Arg → ArgType
  | .mk _ t _ _ _ _ _ _ _ _ _ => t

def Arg.short : Arg → Option Char
  | .mk _ _ s _ _ _ _ _ _ _ _ => s

def Arg.long : Arg → Option String
  | .mk _ _ _ l _ _ _ _ _ _ _ => l

def Arg.help : Arg → String
  | .mk _ _ _ _ h _ _ _ _ _ _ => h

def Arg.required : Arg → Bool
  | .mk _ _ _ _ _ r _ _ _ _ _ => r

def Arg.depends_on : Arg → List String
  | .mk _ _ _ _ _ _ d _ _ _ _ => d

def Arg.conflicts_with : Arg → List String
  | .mk _ _ _ _ _ _ _ c _ _ _ => c

def Arg.default_value : Arg → Option String
  | .mk _ _ _ _ _ _ _ _ d _ _ => d

def Arg.possible_values : Arg → List String
  | .mk _ _ _ _ _ _ _ _ _ p _ => p

def Arg.children : Arg → List ArgChain
  | .mk _ _ _ _ _ _ _ _ _ _ c => c

/-- Replace the `arg_type` field, keeping everything else (used when a
conditional child's positional index is rewritten). -/
def Arg.withArgType : Arg → ArgType → Arg
  | .mk n _ s l h r d c df p ch, t => .mk n t s l h r d c df p ch

def ArgChain.when_value : ArgChain → String
  | .mk w _ => w

def ArgChain.args : ArgChain → List Arg
  | .mk _ a => a

/-- Mirrors `Arg::new`: a Flag whose long alias defaults to the name. -/
def Arg.new (name : String) : Arg :=
  .mk name .flag none (some name) "" false [] [] none [] []

/-- Mirrors `Arg::positional`: a Positional argument, required by default. -/
def Arg.positional (name : String) (index : Nat) : Arg :=
  .mk name (.positional index) none none "" true [] [] none [] []

/-- Mirrors `Arg::variadic`. -/
def Arg.variadic (name : String) : Arg :=
  .mk name .variadic none none "" false [] [] none [] []

/-- Mirrors the `Arg::short` builder method. -/
def Arg.withShort : Arg → Char → Arg
  | .mk n t _ l h r d c df p ch, s => .mk n t (some s) l h r d c df p ch

/-- Mirrors the `Arg::long` builder method. -/
def Arg.withLong : Arg → String → Arg
  | .mk n t s _ h r d c df p ch, l => .mk n t s (some l) h r d c df p ch

/-- Mirrors the `Arg::required` builder method. -/
def Arg.withRequired : Arg → Bool → Arg
  | .mk n t s l h _ d c df p ch, r => .mk n t s l h r d c df p ch

/-- Mirrors `Arg::takes_value`: turns the argument into an Option kind. -/
def Arg.takesValue : Arg → Arg
  | .mk n _ s l h r d c df p ch => .mk n .option s l h r d c df p ch

/-- Mirrors the `Arg::depends_on` builder method (pushes one dependency). -/
def Arg.addDependsOn : Arg → String → Arg
  | .mk n t s l h r d c df p ch, x => .mk n t s l h r (d ++ [x]) c df p ch

/-- Mirrors the `Arg::conflicts_with` builder method (pushes one conflict). -/
def Arg.addConflictsWith : Arg → String → Arg
  | .mk n t s l h r d c df p ch, x => .mk n t s l h r d (c ++ [x]) df p ch

/-- Mirrors the `Arg::default_value` builder method. -/
def Arg.withDefaultValue : Arg → String → Arg
  | .mk n t s l h r d c _ p ch, v => .mk n t s l h r d c (some v) p ch

/-- Mirrors the `Arg::possible_values` builder method. -/
def Arg.withPossibleValues : Arg → List String → Arg
  | .mk n t s l h r d c df _ ch, p => .mk n t s l h r d c df p ch

/-- Mirrors the `Arg::when` builder method (pushes one conditional chain). -/
def Arg.addWhen : Arg → String → List Arg → Arg
  | .mk n t s l h r d c df p ch, v, as => .mk n t s l h r d c df p (ch ++ [.mk v as])

/-- The error values `Command::parse` can return (one constructor per
`return Err(at!(..))` site in the source, carrying the data interpolated
into the message). -/
inductive ParseError : Type where
  | unknownLong (key : String) : ParseError
  | missingValueLong (key : String) : ParseError
  | invalidTypeLong (key : String) : ParseError
  | unknownShort (c : Char) : ParseError
  | missingValueShort (c : Char) : ParseError
  | invalidTypeShort (c : Char) : ParseError
  | invalidValue (value name : String) (possible : List String) : ParseError
  | missingPositional (name : String) : ParseError
  | dependsError (name dep : String) : ParseError
  | conflictError (name conflict : String) : ParseError
  | requiredError (name : String) : ParseError
deriving DecidableEq

/-- Mirrors `struct ParsedArgs`. -/
structure ParsedArgs : Type where
  values : List (String × String)
  flags : List (String × Bool)
  positional : List String
  variadic : List String
deriving DecidableEq

/-- Association-list insert modelling `HashMap::insert`: the new binding
shadows any previous one under lookup. -/
def insertS (l : List (String × String)) (k v : String) : List (String × String) :=
  (k, v) :: l

/-- Association-list insert for the flags map. -/
def insertB (l : List (String × Bool)) (k : String) (v : Bool) : List (String × Bool) :=
  (k, v) :: l

/-- Association-list lookup modelling `HashMap::get`. -/
def lookupS (l : List (String × String)) (k : String) : Option String :=
  (List.find? (fun p => p.1 == k) l).map (fun p => p.2)

/-- Association-list lookup for the flags map. -/
def lookupB (l : List (String × Bool)) (k : String) : Option Bool :=
  (List.find? (fun p => p.1 == k) l).map (fun p => p.2)

/-- Mirrors `ParsedArgs::get`. -/
def ParsedArgs.get (p : ParsedArgs) (name : String) : Option String :=
  lookupS p.values name

/-- Mirrors `ParsedArgs::flag`: absent entries read as `false`. -/
def ParsedArgs.flag (p : ParsedArgs) (name : String) : Bool :=
  (lookupB p.flags name).getD false

/-- Mirrors `ParsedArgs::pos`. -/
def ParsedArgs.pos (p : ParsedArgs) (index : Nat) : Option String :=
  p.positional.get? index

/-- `s.starts_with('-')` from the source, computed on the character list. -/
def startsDash (s : String) : Bool :=
  match s.data with
  | '-' :: _ => true
  | _ => false

/-- `trim_start_matches("--")` on the character list: strip leading `--`
pairs repeatedly. -/
def stripDashesAux : List Char → List Char
  | '-' :: '-' :: r => stripDashesAux r
  | l => l

/-- Mirrors `key.trim_start_matches("--")` as used on a `--`-prefixed token. -/
def stripLongDashes (s : String) : String :=
  ⟨stripDashesAux s.data⟩

/-- `split_once('=')` on the character list. -/
def splitOnceAux : List Char → Option (List Char × List Char)
  | [] => none
  | c :: r =>
    if c = '=' then some ([], r)
    else
      match splitOnceAux r with
      | some (x, y) => some (c :: x, y)
      | none => none

/-- Mirrors `str::split_once('=')`. -/
def splitOnceEq (s : String) : Option (String × String) :=
  match splitOnceAux s.data with
  | some (a, b) => some (⟨a⟩, ⟨b⟩)
  | none => none

/-- The pre-scan in `Command::parse` (lines 582-589): every token that does
not start with `-` is collected as a raw positional for conditional-chain
activation. -/
def preScan (args : List String) : List String :=
  args.filter (fun a => !startsDash a)

/-- The index rewrite applied to a conditional child when it is spliced into
the active set (`get_active_args`, lines 555-560): a nested Positional's
index becomes `parent_index + 1 + child_index`; other kinds are unchanged. -/
def spliceChild (index : Nat) (child : Arg) : Arg :=
  match child.arg_type with
  | .positional child_idx => child.withArgType (.positional (index + 1 + child_idx))
  | _ => child

/-- The conditional children contributed by one base spec in
`get_active_args`: only a Positional parent whose raw token exists can
trigger chains, and a chain fires exactly when its trigger equals that
token. -/
def triggeredChildren (parsed_positionals : List String) (a : Arg) : List Arg :=
  match a.arg_type with
  | .positional index =>
    match parsed_positionals.get? index with
    | some value =>
      a.children.flatMap (fun chain =>
        if chain.when_value = value then chain.args.map (spliceChild index) else [])
    | none => []
  | _ => []

/-- Mirrors `Command::get_active_args`: the base specs followed by every
triggered conditional child, in declaration order. -/
def get_active_args (args : List Arg) (parsed_positionals : List String) : List Arg :=
  args ++ args.flatMap (triggeredChildren parsed_positionals)

/-- The mutable scan state of `Command::parse`'s main token loop. -/
structure ScanState : Type where
  values : List (String × String)
  flags : List (String × Bool)
  positional_raw : List String
  seen_args : List String
deriving DecidableEq

/-- The empty scan state at the top of `Command::parse`. -/
def initState : ScanState := ⟨[], [], [], []⟩

/-- The main token loop of `Command::parse` (lines 595-656): long options
(inline `--k=v` or value-consuming), short options, flags, and raw
positionals. An Option consumes the following token as its value. -/
def scanTokens (active : List Arg) (st : ScanState) :
    List String → Except ParseError ScanState
  | [] => .ok st
  | tok :: rest =>
    match tok.data with
    | '-' :: '-' :: _ =>
      match splitOnceEq (stripLongDashes tok) with
      | some (k, v) =>
        match List.find? (fun a => a.long == some k) active with
        | some ad =>
          scanTokens active
            { st with values := insertS st.values ad.name v,
                      seen_args := st.seen_args ++ [ad.name] } rest
        | none => .error (.unknownLong k)
      | none =>
        match List.find? (fun a => a.long == some (stripLongDashes tok)) active with
        | some ad =>
          match ad.arg_type with
          | ArgType.option =>
            match rest with
            | [] => .error (.missingValueLong (stripLongDashes tok))
            | v :: rest2 =>
              scanTokens active
                { st with values := insertS st.values ad.name v,
                          seen_args := st.seen_args ++ [ad.name] } rest2
          | ArgType.flag =>
            scanTokens active
              { st with flags := insertB st.flags ad.name true,
                        seen_args := st.seen_args ++ [ad.name] } rest
          | _ => .error (.invalidTypeLong (stripLongDashes tok))
        | none => .error (.unknownLong (stripLongDashes tok))
    | '-' :: c :: _ =>
      match List.find? (fun a => a.short == some c) active with
      | some ad =>
        match ad.arg_type with
        | ArgType.option =>
          match rest with
          | [] => .error (.missingValueShort c)
          | v :: rest2 =>
            scanTokens active
              { st with values := insertS st.values ad.name v,
                        seen_args := st.seen_args ++ [ad.name] } rest2
        | ArgType.flag =>
          scanTokens active
            { st with flags := insertB st.flags ad.name true,
                      seen_args := st.seen_args ++ [ad.name] } rest
        | _ => .error (.invalidTypeShort c)
      | none => .error (.unknownShort c)
    | _ =>
      scanTokens active { st with positional_raw := st.positional_raw ++ [tok] } rest

/-- `matches!(arg_type, Positional { .. })` from the source. -/
def Arg.isPositionalB (a : Arg) : Bool :=
  match a.arg_type with
  | .positional _ => true
  | _ => false

/-- `matches!(arg_type, Variadic)` from the source. -/
def Arg.isVariadicB (a : Arg) : Bool :=
  match a.arg_type with
  | .variadic => true
  | _ => false

/-- The sort key used by `sort_by_key` in the source: the positional index,
with `usize::MAX` for non-positional kinds. -/
def posSortKey (a : Arg) : Nat :=
  match a.arg_type with
  | .positional index => index
  | _ => 18446744073709551615

/-- One insertion step of a stable insertion sort by `posSortKey`: the new
element goes before the first strictly greater key, after equal keys already
placed, preserving the original order of equal keys. -/
def insertByKey (x : Arg) : List Arg → List Arg
  | [] => [x]
  | y :: ys => if posSortKey y < posSortKey x then y :: insertByKey x ys else x :: y :: ys

/-- Stable insertion sort by `posSortKey`.  Rust's `sort_by_key` is a stable
sort, and a stable sort by a total key is a unique permutation, so this
computes exactly the list `positional_sorted` of the source. -/
def insertionSortByKey : List Arg → List Arg
  | [] => []
  | x :: xs => insertByKey x (insertionSortByKey xs)

/-- The positional specs of the active set, sorted ascending by index
(`positional_defs` filtered then `sort_by_key`). -/
def sortPositionals (active : List Arg) : List Arg :=
  insertionSortByKey (active.filter Arg.isPositionalB)

/-- The positional assignment loop of `Command::parse` (lines 674-699):
each sorted positional spec reads the buffer at its index, validating
`possible_values`; a required spec with no token falls back to its default
(without touching the seen list) or errors. -/
def assignPositionals :
    List Arg → List String → List String → List (String × String) → List String →
    Except ParseError (List String × List (String × String) × List String)
  | [], _, pos, vals, seen => .ok (pos, vals, seen)
  | ad :: rest, buffer, pos, vals, seen =>
    match ad.arg_type with
    | .positional index =>
      match buffer.get? index with
      | some value =>
        if !ad.possible_values.isEmpty && !(ad.possible_values.contains value) then
          .error (.invalidValue value ad.name ad.possible_values)
        else
          assignPositionals rest buffer (pos ++ [value])
            (insertS vals ad.name value) (seen ++ [ad.name])
      | none =>
        if ad.required then
          match ad.default_value with
          | some d =>
            assignPositionals rest buffer (pos ++ [d]) (insertS vals ad.name d) seen
          | none => .error (.missingPositional ad.name)
        else
          assignPositionals rest buffer pos vals seen
    | _ => assignPositionals rest buffer pos vals seen

/-- The variadic step of `Command::parse` (lines 701-708): when a Variadic
spec exists, the buffer past the count of positional specs becomes the
variadic tail, and the Variadic name is marked seen when the tail is
nonempty. -/
def assignVariadic (active : List Arg) (count : Nat) (buffer : List String)
    (seen : List String) : List String × List String :=
  match List.find? Arg.isVariadicB active with
  | some vdef =>
    let v := buffer.drop count
    (v, if v.isEmpty then seen else seen ++ [vdef.name])
  | none => ([], seen)

/-- The per-spec body of the dependency/conflict loop (lines 710-732): for a
seen spec, the first missing dependency errors, otherwise the first present
conflict errors. -/
def checkArgOne (ad : Arg) (seen : List String) : Option ParseError :=
  if seen.contains ad.name then
    match ad.depends_on.find? (fun d => !(seen.contains d)) with
    | some dep => some (.dependsError ad.name dep)
    | none =>
      match ad.conflicts_with.find? (fun c => seen.contains c) with
      | some c => some (.conflictError ad.name c)
      | none => none
  else none

/-- The dependency/conflict loop over the active set, returning the first
violation in declaration order. -/
def checkDepsConflicts : List Arg → List String → Option ParseError
  | [], _ => none
  | ad :: rest, seen =>
    match checkArgOne ad seen with
    | some e => some e
    | none => checkDepsConflicts rest seen

/-- The required/default loop of `Command::parse` (lines 734-750): a
required spec not in the seen list materializes its default (Option into
`values`, Flag into `flags`, other kinds ignored) or errors. -/
def applyRequiredDefaults :
    List Arg → List String → List (String × String) → List (String × Bool) →
    Except ParseError (List (String × String) × List (String × Bool))
  | [], _, vals, flags => .ok (vals, flags)
  | ad :: rest, seen, vals, flags =>
    if ad.required && !(seen.contains ad.name) then
      match ad.default_value with
      | some d =>
        match ad.arg_type with
        | .option => applyRequiredDefaults rest seen (insertS vals ad.name d) flags
        | .flag => applyRequiredDefaults rest seen vals (insertB flags ad.name true)
        | _ => applyRequiredDefaults rest seen vals flags
      | none => .error (.requiredError ad.name)
    else applyRequiredDefaults rest seen vals flags

/-- A command, reduced to the fields `Command::parse` reads (name and
argument specs; about/usage/subcommands/handler are presentation and
dispatch, out of the parsing core). -/
structure Command : Type where
  name : String
  args : List Arg

/-- Mirrors `Command::new` (restricted to the parsing-relevant fields). -/
def Command.new (name : String) : Command := ⟨name, []⟩

/-- Mirrors `Command::arg`, pushing one argument spec. -/
def Command.addArg (self : Command) (a : Arg) : Command :=
  ⟨self.name, self.args ++ [a]⟩

/-- The active set used by `Command::parse`: the base specs expanded by the
pre-scan of the raw tokens. -/
def Command.activeArgs (self : Command) (args : List String) : List Arg :=
  get_active_args self.args (preScan args)

/-- `Command::parse`, with the final seen list exposed alongside the result
(the Rust function keeps `seen_args` as a local; it is returned here so that
the seen-set invariants can be stated). -/
def Command.parseFull (self : Command) (args : List String) :
    Except ParseError (ParsedArgs × List String) :=
  match scanTokens (self.activeArgs args) initState args with
  | .error e => .error e
  | .ok st =>
    match assignPositionals (sortPositionals (self.activeArgs args))
        st.positional_raw [] st.values st.seen_args with
    | .error e => .error e
    | .ok (pos, vals, seen1) =>
      match assignVariadic (self.activeArgs args)
          (sortPositionals (self.activeArgs args)).length st.positional_raw seen1 with
      | (vr, seen2) =>
        match checkDepsConflicts (self.activeArgs args) seen2 with
        | some e => .error e
        | none =>
          match applyRequiredDefaults (self.activeArgs args) seen2 vals st.flags with
          | .error e => .error e
          | .ok (vals2, flags2) => .ok (⟨vals2, flags2, pos, vr⟩, seen2)

/-- Mirrors `Command::parse` as seen by callers: the `ParsedArgs` alone. -/
def Command.parse (self : Command) (args : List String) : Except ParseError ParsedArgs :=
  match self.parseFull args with
  | .ok (p, _) => .ok p
  | .error e => .error e

/-! ## Helper lemmas -/

lemma mem_ite_nil_r {α : Type} {p : Prop} [Decidable p] {l : List α} {x : α} :
    x ∈ (if p then l else []) ↔ p ∧ x ∈ l := by
  by_cases h : p <;> simp [h]

lemma arg_type_withArgType (a : Arg) (t : ArgType) : (a.withArgType t).arg_type = t := by
  cases a; rfl

lemma triggeredChildren_eq_nil {toks : List String} {a : Arg} (h : a.children = []) :
    triggeredChildren toks a = [] := by
  unfold triggeredChildren
  cases ht : a.arg_type <;> simp only []
  case positional i =>
    cases hv : toks.get? i <;> simp [h]

lemma mem_triggeredChildren {toks : List String} {a b : Arg} :
    b ∈ triggeredChildren toks a ↔
      ∃ i, a.arg_type = ArgType.positional i ∧
        ∃ chain ∈ a.children, toks.get? i = some chain.when_value ∧
          ∃ c ∈ chain.args, b = spliceChild i c := by
  cases ht : a.arg_type
  case positional i =>
    cases hv : toks.get? i
    case none =>
      simp only [triggeredChildren, ht, hv]
      simp only [List.not_mem_nil, false_iff]
      rintro ⟨i2, hi2, chain, hchain, hsome, _⟩
      injection hi2 with h
      subst h
      rw [hv] at hsome
      cases hsome
    case some value =>
      simp only [triggeredChildren, ht, hv]
      rw [List.mem_flatMap]
      constructor
      · rintro ⟨chain, hchain, hb⟩
        rw [mem_ite_nil_r] at hb
        obtain ⟨hwv, hb⟩ := hb
        rw [List.mem_map] at hb
        obtain ⟨c, hc, rfl⟩ := hb
        exact ⟨i, rfl, chain, hchain, by rw [hv, hwv], c, hc, rfl⟩
      · rintro ⟨i2, hi2, chain, hchain, hsome, c, hc, rfl⟩
        injection hi2 with h
        subst h
        rw [hv] at hsome
        injection hsome with h2
        refine ⟨chain, hchain, ?_⟩
        rw [mem_ite_nil_r]
        exact ⟨h2.symm, List.mem_map.mpr ⟨c, hc, rfl⟩⟩
  all_goals
    simp only [triggeredChildren, ht]
    simp only [List.not_mem_nil, false_iff]
    rintro ⟨i2, hi2, _⟩
    exact ArgType.noConfusion hi2

lemma mem_get_active_args {args : List Arg} {toks : List String} {b : Arg} :
    b ∈ get_active_args args toks ↔
      b ∈ args ∨ ∃ a ∈ args, b ∈ triggeredChildren toks a := by
  simp [get_active_args, List.mem_append, List.mem_flatMap]

lemma lookupS_insert_self (l : List (String × String)) (k v : String) :
    lookupS (insertS l k v) k = some v := by
  simp [lookupS, insertS, List.find?_cons]

lemma lookupS_insert_ne (l : List (String × String)) (k v k' : String) (h : k' ≠ k) :
    lookupS (insertS l k v) k' = lookupS l k' := by
  unfold lookupS insertS
  rw [List.find?_cons_of_neg]
  simp only [beq_iff_eq]
  exact Ne.symm h

/-- The error constructors that the token scan can produce. -/
def ParseError.fromScanB : ParseError → Bool
  | .unknownLong _ => true
  | .missingValueLong _ => true
  | .invalidTypeLong _ => true
  | .unknownShort _ => true
  | .missingValueShort _ => true
  | .invalidTypeShort _ => true
  | _ => false

lemma scan_error_fromScan (active : List Arg) :
    ∀ (st : ScanState) (toks : List String) (e : ParseError),
      scanTokens active st toks = .error e → e.fromScanB = true := by
  intro st toks
  induction st, toks using scanTokens.induct active
  all_goals intro e h
  all_goals simp only [scanTokens] at h
  all_goals try simp only [*] at h
  all_goals first
    | exact Except.noConfusion h
    | (injection h with h2; subst h2; rfl)
    | solve_by_elim

lemma checkArgOne_shape {ad : Arg} {seen : List String} {e : ParseError}
    (h : checkArgOne ad seen = some e) :
    (∃ n d, e = ParseError.dependsError n d) ∨ (∃ n c, e = ParseError.conflictError n c) := by
  unfold checkArgOne at h
  split at h
  · split at h
    · injection h with h2
      exact Or.inl ⟨_, _, h2.symm⟩
    · split at h
      · injection h with h2
        exact Or.inr ⟨_, _, h2.symm⟩
      · exact Option.noConfusion h
  · exact Option.noConfusion h

lemma checkDeps_error_shape :
    ∀ (l : List Arg) (seen : List String) (e : ParseError),
      checkDepsConflicts l seen = some e →
      (∃ n d, e = ParseError.dependsError n d) ∨ (∃ n c, e = ParseError.conflictError n c) := by
  intro l
  induction l with
  | nil => intro seen e h; exact Option.noConfusion h
  | cons hd rest ih =>
    intro seen e h
    rw [checkDepsConflicts] at h
    cases hone : checkArgOne hd seen with
    | some e2 =>
      rw [hone] at h
      injection h with h2
      subst h2
      exact checkArgOne_shape hone
    | none =>
      rw [hone] at h
      exact ih seen e h

lemma applyRequired_error_shape :
    ∀ (l : List Arg) (seen : List String) (vals : List (String × String))
      (flags : List (String × Bool)) (e : ParseError),
      applyRequiredDefaults l seen vals flags = .error e →
      ∃ n, e = ParseError.requiredError n := by
  intro l
  induction l with
  | nil => intro seen vals flags e h; exact Except.noConfusion h
  | cons hd rest ih =>
    intro seen vals flags e h
    simp only [applyRequiredDefaults] at h
    split at h
    · split at h
      · split at h
        · exact ih _ _ _ _ h
        · exact ih _ _ _ _ h
        · exact ih _ _ _ _ h
      · injection h with h2
        exact ⟨_, h2.symm⟩
    · exact ih _ _ _ _ h

lemma applyRequired_preserve :
    ∀ (l : List Arg) (seen : List String) (vals : List (String × String))
      (flags : List (String × Bool)) (vals2 : List (String × String))
      (flags2 : List (String × Bool)) (n : String),
      applyRequiredDefaults l seen vals flags = .ok (vals2, flags2) →
      (∀ b ∈ l, b.name ≠ n) →
      lookupS vals2 n = lookupS vals n := by
  intro l
  induction l with
  | nil =>
    intro seen vals flags vals2 flags2 n h _
    injection h with h2
    rw [(Prod.mk.injEq _ _ _ _).mp h2.symm |>.1]
  | cons hd rest ih =>
    intro seen vals flags vals2 flags2 n h hall
    have hhd : hd.name ≠ n := hall hd (List.mem_cons_self hd rest)
    have hrest : ∀ b ∈ rest, b.name ≠ n := fun b hb => hall b (List.mem_cons_of_mem hd hb)
    simp only [applyRequiredDefaults] at h
    split at h
    · split at h
      · split at h
        · rw [ih _ _ _ _ _ _ h hrest]
          exact lookupS_insert_ne vals hd.name _ n (Ne.symm hhd)
        · exact ih _ _ _ _ _ _ h hrest
        · exact ih _ _ _ _ _ _ h hrest
      · exact Except.noConfusion h
    · exact ih _ _ _ _ _ _ h hrest

lemma applyRequired_lookup_default :
    ∀ (l : List Arg) (seen : List String) (vals : List (String × String))
      (flags : List (String × Bool)) (vals2 : List (String × String))
      (flags2 : List (String × Bool)) (a : Arg) (D : String),
      applyRequiredDefaults l seen vals flags = .ok (vals2, flags2) →
      a ∈ l → (∀ b ∈ l, b.name = a.name → b = a) →
      a.arg_type = ArgType.option → a.required = true →
      a.default_value = some D → seen.contains a.name = false →
      lookupS vals2 a.name = some D := by
  intro l
  induction l with
  | nil => intro seen vals flags vals2 flags2 a D _ hmem; exact absurd hmem (List.not_mem_nil a)
  | cons hd rest ih =>
    intro seen vals flags vals2 flags2 a D h hmem huniq hopt hreq hdef hseen
    have huniq2 : ∀ b ∈ rest, b.name = a.name → b = a :=
      fun b hb => huniq b (List.mem_cons_of_mem hd hb)
    by_cases hda : hd = a
    · subst hda
      simp only [applyRequiredDefaults, hreq, hseen, Bool.not_false, Bool.and_self,
        if_true, hdef, hopt] at h
      by_cases hmem2 : hd ∈ rest
      · exact ih _ _ _ _ _ _ _ h hmem2 huniq2 hopt hreq hdef hseen
      · have hall : ∀ b ∈ rest, b.name ≠ hd.name := by
          intro b hb he
          exact hmem2 (huniq2 b hb he ▸ hb)
        rw [applyRequired_preserve rest seen _ flags vals2 flags2 hd.name h hall]
        exact lookupS_insert_self vals hd.name D
    · have hmem2 : a ∈ rest := by
        rcases List.mem_cons.mp hmem with h1 | h1
        · exact absurd h1.symm hda
        · exact h1
      simp only [applyRequiredDefaults] at h
      split at h
      · split at h
        · split at h
          · exact ih _ _ _ _ _ _ _ h hmem2 huniq2 hopt hreq hdef hseen
          · exact ih _ _ _ _ _ _ _ h hmem2 huniq2 hopt hreq hdef hseen
          · exact ih _ _ _ _ _ _ _ h hmem2 huniq2 hopt hreq hdef hseen
        · exact Except.noConfusion h
      · exact ih _ _ _ _ _ _ _ h hmem2 huniq2 hopt hreq hdef hseen

/-- The names that the positional-assignment loop records as seen: exactly
the sorted positional specs whose buffer entry exists. -/
def assignedPosNames : List Arg → List String → List String
  | [], _ => []
  | ad :: rest, buffer =>
    match ad.arg_type with
    | .positional i =>
      match buffer.get? i with
      | some _ => ad.name :: assignedPosNames rest buffer
      | none => assignedPosNames rest buffer
    | _ => assignedPosNames rest buffer

lemma assignPositionals_seen :
    ∀ (l : List Arg) (buffer pos : List String) (vals : List (String × String))
      (seen pos2 : List String) (vals2 : List (String × String)) (seen2 : List String),
      assignPositionals l buffer pos vals seen = .ok (pos2, vals2, seen2) →
      seen2 = seen ++ assignedPosNames l buffer := by
  intro l
  induction l with
  | nil =>
    intro buffer pos vals seen pos2 vals2 seen2 h
    injection h with h2
    rw [assignedPosNames, List.append_nil]
    exact ((Prod.mk.injEq _ _ _ _).mp ((Prod.mk.injEq _ _ _ _).mp h2.symm).2).2
  | cons hd rest ih =>
    intro buffer pos vals seen pos2 vals2 seen2 h
    simp only [assignPositionals] at h
    rw [assignedPosNames]
    cases ht : hd.arg_type with
    | positional i =>
      simp only [ht] at h ⊢
      cases hb : buffer.get? i with
      | some value =>
        simp only [hb] at h ⊢
        split at h
        · exact Except.noConfusion h
        · rw [ih _ _ _ _ _ _ _ h, List.append_assoc]
          rfl
      | none =>
        simp only [hb] at h ⊢
        split at h
        · split at h
          · exact ih _ _ _ _ _ _ _ h
          · exact Except.noConfusion h
        · exact ih _ _ _ _ _ _ _ h
    | flag =>
      simp only [ht] at h ⊢
      exact ih _ _ _ _ _ _ _ h
    | option =>
      simp only [ht] at h ⊢
      exact ih _ _ _ _ _ _ _ h
    | variadic =>
      simp only [ht] at h ⊢
      exact ih _ _ _ _ _ _ _ h

lemma assignPositionals_invalid_inv :
    ∀ (l : List Arg) (buffer pos : List String) (vals : List (String × String))
      (seen : List String) (v n : String) (pvs : List String),
      assignPositionals l buffer pos vals seen = .error (.invalidValue v n pvs) →
      ∃ ad ∈ l, ∃ i, ad.arg_type = ArgType.positional i ∧ buffer.get? i = some v ∧
        ad.name = n ∧ ad.possible_values = pvs ∧ pvs.isEmpty = false ∧
        pvs.contains v = false := by
  intro l
  induction l with
  | nil => intro buffer pos vals seen v n pvs h; exact Except.noConfusion h
  | cons hd rest ih =>
    intro buffer pos vals seen v n pvs h
    simp only [assignPositionals] at h
    cases ht : hd.arg_type with
    | positional i =>
      simp only [ht] at h
      cases hb : buffer.get? i with
      | some value =>
        simp only [hb] at h
        split at h
        · rename_i hcond
          injection h with h2
          injection h2 with hv2 hn2 hp2
          subst hv2; subst hn2; subst hp2
          rw [Bool.and_eq_true, Bool.not_eq_true', Bool.not_eq_true'] at hcond
          exact ⟨hd, List.mem_cons_self hd rest, i, ht, hb, rfl, rfl, hcond.1, hcond.2⟩
        · obtain ⟨ad, hmem, rest2⟩ := ih _ _ _ _ _ _ _ h
          exact ⟨ad, List.mem_cons_of_mem hd hmem, rest2⟩
      | none =>
        simp only [hb] at h
        split at h
        · split at h
          · obtain ⟨ad, hmem, rest2⟩ := ih _ _ _ _ _ _ _ h
            exact ⟨ad, List.mem_cons_of_mem hd hmem, rest2⟩
          · exact absurd h (by simp)
        · obtain ⟨ad, hmem, rest2⟩ := ih _ _ _ _ _ _ _ h
          exact ⟨ad, List.mem_cons_of_mem hd hmem, rest2⟩
    | flag =>
      simp only [ht] at h
      obtain ⟨ad, hmem, rest2⟩ := ih _ _ _ _ _ _ _ h
      exact ⟨ad, List.mem_cons_of_mem hd hmem, rest2⟩
    | option =>
      simp only [ht] at h
      obtain ⟨ad, hmem, rest2⟩ := ih _ _ _ _ _ _ _ h
      exact ⟨ad, List.mem_cons_of_mem hd hmem, rest2⟩
    | variadic =>
      simp only [ht] at h
      obtain ⟨ad, hmem, rest2⟩ := ih _ _ _ _ _ _ _ h
      exact ⟨ad, List.mem_cons_of_mem hd hmem, rest2⟩

lemma assignPositionals_take :
    ∀ (l : List Arg) (buffer pos : List String) (vals : List (String × String))
      (seen : List String) (count : Nat),
      (∀ a ∈ l, ∀ i, a.arg_type = ArgType.positional i → i < count) →
      assignPositionals l (buffer.take count) pos vals seen
        = assignPositionals l buffer pos vals seen := by
  intro l
  induction l with
  | nil => intro buffer pos vals seen count _; rfl
  | cons hd rest ih =>
    intro buffer pos vals seen count hlt
    have hrest : ∀ a ∈ rest, ∀ i, a.arg_type = ArgType.positional i → i < count :=
      fun a ha => hlt a (List.mem_cons_of_mem hd ha)
    simp only [assignPositionals]
    cases ht : hd.arg_type with
    | positional i =>
      have hi : i < count := hlt hd (List.mem_cons_self hd rest) i ht
      simp only [ht, List.get?_take hi]
      cases hb : buffer.get? i with
      | some value =>
        simp only [hb]
        split
        · rfl
        · exact ih _ _ _ _ _ hrest
      | none =>
        simp only [hb]
        split
        · split
          · exact ih _ _ _ _ _ hrest
          · rfl
        · exact ih _ _ _ _ _ hrest
    | flag => simp only [ht]; exact ih _ _ _ _ _ hrest
    | option => simp only [ht]; exact ih _ _ _ _ _ hrest
    | variadic => simp only [ht]; exact ih _ _ _ _ _ hrest

lemma parseFull_ok_inv {cmd : Command} {toks : List String} {p : ParsedArgs}
    {seen : List String} (h : cmd.parseFull toks = .ok (p, seen)) :
    ∃ st pos vals seen1,
      scanTokens (cmd.activeArgs toks) initState toks = .ok st ∧
      assignPositionals (sortPositionals (cmd.activeArgs toks)) st.positional_raw []
        st.values st.seen_args = .ok (pos, vals, seen1) ∧
      seen = (assignVariadic (cmd.activeArgs toks)
        (sortPositionals (cmd.activeArgs toks)).length st.positional_raw seen1).2 ∧
      checkDepsConflicts (cmd.activeArgs toks) seen = none ∧
      ∃ vals2 flags2,
        applyRequiredDefaults (cmd.activeArgs toks) seen vals st.flags
          = .ok (vals2, flags2) ∧
        p = ⟨vals2, flags2, pos,
          (assignVariadic (cmd.activeArgs toks)
            (sortPositionals (cmd.activeArgs toks)).length st.positional_raw seen1).1⟩ := by
  unfold Command.parseFull at h
  cases hscan : scanTokens (cmd.activeArgs toks) initState toks with
  | error e =>
    simp only [hscan] at h
    exact Except.noConfusion h
  | ok st =>
    simp only [hscan] at h
    cases hassign : assignPositionals (sortPositionals (cmd.activeArgs toks))
        st.positional_raw [] st.values st.seen_args with
    | error e =>
      simp only [hassign] at h
      exact Except.noConfusion h
    | ok triple =>
      obtain ⟨pos, vals, seen1⟩ := triple
      simp only [hassign] at h
      rcases hvar : assignVariadic (cmd.activeArgs toks)
          (sortPositionals (cmd.activeArgs toks)).length st.positional_raw seen1 with
        ⟨vr, seen2⟩
      simp only [hvar] at h
      cases hcheck : checkDepsConflicts (cmd.activeArgs toks) seen2 with
      | some e =>
        simp only [hcheck] at h
        exact Except.noConfusion h
      | none =>
        simp only [hcheck] at h
        cases happly : applyRequiredDefaults (cmd.activeArgs toks) seen2 vals st.flags with
        | error e =>
          simp only [happly] at h
          exact Except.noConfusion h
        | ok pairr =>
          obtain ⟨vals2, flags2⟩ := pairr
          simp only [happly] at h
          injection h with h2
          injection h2 with hp hseen
          subst hseen
          subst hp
          refine ⟨st, pos, vals, seen1, rfl, hassign, by rw [hvar], hcheck, vals2, flags2,
            happly, by rw [hvar]⟩

/-! ## Claims -/

/-- C4: a conditional chain of a Positional spec contributes its nested
specs to the active set iff the raw positional token at the parent's index
exists and equals the chain's trigger value (string equality, hence
case-sensitive); when the token is absent no chain activates; multiple
matching chains all fire (each chain is quantified independently); and for
specs with no conditional children the resolver returns the base list
unchanged. -/
theorem C4_resolver_activation (args : List Arg) (toks : List String) :
    ((∀ a ∈ args, a.children = []) → get_active_args args toks = args) ∧
    (∀ b : Arg, b ∈ get_active_args args toks ↔
      (b ∈ args ∨ ∃ a ∈ args, ∃ i, a.arg_type = ArgType.positional i ∧
        ∃ chain ∈ a.children, toks.get? i = some chain.when_value ∧
          ∃ c ∈ chain.args, b = spliceChild i c)) := by
  constructor
  · intro h
    unfold get_active_args
    have hz : args.flatMap (triggeredChildren toks) = [] := by
      rw [List.flatMap_eq_nil_iff]
      intro a ha
      exact triggeredChildren_eq_nil (h a ha)
    rw [hz, List.append_nil]
  · intro b
    rw [mem_get_active_args]
    constructor
    · rintro (hb | ⟨a, ha, hb⟩)
      · exact Or.inl hb
      · exact Or.inr ⟨a, ha, mem_triggeredChildren.mp hb⟩
    · rintro (hb | ⟨a, ha, hb⟩)
      · exact Or.inl hb
      · exact Or.inr ⟨a, ha, mem_triggeredChildren.mpr hb⟩

/-- C4 witness: a spec list with no conditional children resolves to itself. -/
theorem C4_resolver_activation_witness :
    get_active_args [Arg.positional "action" 0] ["get"] = [Arg.positional "action" 0] :=
  (C4_resolver_activation [Arg.positional "action" 0] ["get"]).1
    (by intro a ha; simp only [List.mem_singleton] at ha; subst ha; rfl)

/-- C5: a nested Positional spec spliced in by a matching chain whose parent
has index `i` and whose declared child index is `d` lands in the active set
with positional index `i + 1 + d`; nested specs of non-Positional kind are
spliced in unchanged. -/
theorem C5_splice_index (args : List Arg) (toks : List String) (a : Arg) (i : Nat)
    (chain : ArgChain) (c : Arg)
    (ha : a ∈ args) (ht : a.arg_type = ArgType.positional i) (hc : chain ∈ a.children)
    (hv : toks.get? i = some chain.when_value) (hm : c ∈ chain.args) :
    spliceChild i c ∈ get_active_args args toks ∧
    (∀ d, c.arg_type = ArgType.positional d →
      (spliceChild i c).arg_type = ArgType.positional (i + 1 + d)) ∧
    ((∀ d, c.arg_type ≠ ArgType.positional d) → spliceChild i c = c) := by
  refine ⟨?_, ?_, ?_⟩
  · exact mem_get_active_args.mpr
      (Or.inr ⟨a, ha, mem_triggeredChildren.mpr ⟨i, ht, chain, hc, hv, c, hm, rfl⟩⟩)
  · intro d hd
    unfold spliceChild
    rw [hd]
    exact arg_type_withArgType c (ArgType.positional (i + 1 + d))
  · intro hnp
    unfold spliceChild
    cases hct : c.arg_type
    case positional d => exact absurd hct (hnp d)
    all_goals rfl

/-- C5 witness: the chain of scenario 1 splices `key` in at index 0 + 1 + 0 = 1. -/
theorem C5_splice_index_witness :
    spliceChild 0 (Arg.positional "key" 0) ∈
      get_active_args [(Arg.positional "action" 0).addWhen "get" [Arg.positional "key" 0]]
        ["get"] ∧
    (spliceChild 0 (Arg.positional "key" 0)).arg_type = ArgType.positional 1 := by
  have h := C5_splice_index
    [(Arg.positional "action" 0).addWhen "get" [Arg.positional "key" 0]] ["get"]
    ((Arg.positional "action" 0).addWhen "get" [Arg.positional "key" 0]) 0
    (ArgChain.mk "get" [Arg.positional "key" 0]) (Arg.positional "key" 0)
    (by simp) rfl (by simp [Arg.addWhen, Arg.positional, Arg.children]) rfl
    (by simp [ArgChain.args])
  exact ⟨h.1, h.2.1 0 rfl⟩

/-- C9: parsing is a deterministic pure function of the spec tree and token
list: two invocations of `parse` on the same inputs return equal results.
(The embedding is a pure function, mirroring the Rust `parse` which takes
`&self` and only mutates its own locals.) -/
theorem C9_parse_deterministic (cmd : Command) (toks : List String)
    (r1 r2 : Except ParseError ParsedArgs)
    (h1 : cmd.parse toks = r1) (h2 : cmd.parse toks = r2) : r1 = r2 := by
  rw [← h1, ← h2]

/-- C9 witness: two parses of the empty token list against an empty command
agree. -/
theorem C9_parse_deterministic_witness :
    (Except.ok (⟨[], [], [], []⟩ : ParsedArgs) : Except ParseError ParsedArgs)
      = .ok ⟨[], [], [], []⟩ :=
  C9_parse_deterministic (Command.new "app") [] (.ok ⟨[], [], [], []⟩)
    (.ok ⟨[], [], [], []⟩) rfl rfl

/-- C1 counterexample: the spec's own concrete scenario 2 — an Option
`output` with long alias `output` and default `out.txt` (built exactly as the
source's builder does, hence `required = false`) parsed against the empty
token list succeeds with NO entry for `output`: the default of a
non-required Option is never materialized, refuting the claim's "whether or
not the Option is marked required". -/
theorem C1_counterexample :
    ((Command.new "app").addArg
        (((Arg.new "output").takesValue.withLong "output").withDefaultValue "out.txt")).parse []
      = .ok ⟨[], [], [], []⟩ ∧
    ParsedArgs.get ⟨[], [], [], []⟩ "output" = none :=
  ⟨rfl, rfl⟩

/-- C2 counterexample: a Flag `verbose` given the inline token
`--verbose=x` is neither recorded as present (`flag` returns `false`) nor
rejected: the inline branch stores the value into the `values` map without
consulting the spec's kind. -/
theorem C2_counterexample :
    ((Command.new "app").addArg (Arg.new "verbose")).parse ["--verbose=x"]
      = .ok ⟨[("verbose", "x")], [], [], []⟩ ∧
    ParsedArgs.flag ⟨[("verbose", "x")], [], [], []⟩ "verbose" = false :=
  ⟨rfl, rfl⟩

/-- C3 counterexample: a required Option with a default, parsed against the
empty token list, has its default materialized into `values` during
validation, yet the final seen list is `[]` — the name is NOT in the seen
set afterwards. -/
theorem C3_counterexample :
    ((Command.new "app").addArg
        ((((Arg.new "output").takesValue.withLong "output").withDefaultValue
          "out.txt").withRequired true)).parseFull []
      = .ok (⟨[("output", "out.txt")], [], [], []⟩, []) :=
  rfl

/-- C6 counterexample: for the token list `["--o", "--o"]`, whose last token
is a long-form reference to the active Option `o`, parsing does not fail:
the first `--o` consumes the second as its value and the parse succeeds. -/
theorem C6_counterexample :
    ((Command.new "app").addArg ((Arg.new "o").takesValue)).parse ["--o", "--o"]
      = .ok ⟨[("o", "--o")], [], [], []⟩ :=
  rfl

/-- C7 counterexample: with a single declared Positional of index 1 (count
of positional specs = 1) and tokens `["x", "y"]`, the buffer entry `y` at
index 1 ≥ 1 is an "excess" entry and no Variadic spec exists, yet it appears
in the positional output. -/
theorem C7_counterexample :
    ((Command.new "app").addArg (Arg.positional "a" 1)).parse ["x", "y"]
      = .ok ⟨[("a", "y")], [], ["y"], []⟩ :=
  rfl

/-- C8 counterexample: spec `C` is seen, has the unsatisfied dependency `D`
and the present conflict `B`, but parsing reports the Conflict error of the
earlier spec `A`, not C's UnsatisfiedDependency. -/
theorem C8_counterexample :
    ((((Command.new "app").addArg ((Arg.new "A").addConflictsWith "B")).addArg
        (Arg.new "B")).addArg
        (((Arg.new "C").addDependsOn "D").addConflictsWith "B")).parse
        ["--A", "--B", "--C"]
      = .error (.conflictError "A" "B") :=
  rfl

/-- C1 (amended): for a REQUIRED Option spec with default `D` (unique by
name in the active set) that the token list supplies no value for (its name
is absent from the final seen set), a successful parse yields
`values[name] = D`.  A non-required Option's default is never materialized
(see the counterexample). -/
theorem C1_default_roundtrip_required (cmd : Command) (toks : List String)
    (p : ParsedArgs) (seen : List String) (a : Arg) (D : String)
    (h : cmd.parseFull toks = .ok (p, seen))
    (hmem : a ∈ cmd.activeArgs toks)
    (huniq : ∀ b ∈ cmd.activeArgs toks, b.name = a.name → b = a)
    (hopt : a.arg_type = ArgType.option)
    (hreq : a.required = true)
    (hdef : a.default_value = some D)
    (hseen : seen.contains a.name = false) :
    p.get a.name = some D := by
  obtain ⟨st, pos, vals, seen1, hscan, hassign, hseeneq, hcheck, vals2, flags2, happly, hp⟩ :=
    parseFull_ok_inv h
  subst hp
  exact applyRequired_lookup_default (cmd.activeArgs toks) seen vals st.flags vals2 flags2
    a D happly hmem huniq hopt hreq hdef hseen

/-- The required-Option command used to witness C1's amended claim. -/
def cmdC1w : Command :=
  (Command.new "app").addArg
    ((((Arg.new "output").takesValue.withLong "output").withDefaultValue
      "out.txt").withRequired true)

/-- The required-Option spec of `cmdC1w`. -/
def argC1w : Arg :=
  (((Arg.new "output").takesValue.withLong "output").withDefaultValue
    "out.txt").withRequired true

/-- C1 witness: the required variant of scenario 2 does round-trip its
default. -/
theorem C1_default_roundtrip_required_witness :
    ParsedArgs.get ⟨[("output", "out.txt")], [], [], []⟩ "output" = some "out.txt" := by
  have hact : cmdC1w.activeArgs [] = [argC1w] := rfl
  refine C1_default_roundtrip_required cmdC1w [] ⟨[("output", "out.txt")], [], [], []⟩ []
    argC1w "out.txt" rfl ?_ ?_ rfl rfl rfl rfl
  · rw [hact]
    exact List.mem_singleton.mpr rfl
  · intro b hb _
    rw [hact] at hb
    exact List.mem_singleton.mp hb

/-- C2 (amended): an inline `--name=value` token whose key matches the long
alias of an active spec — in particular a Flag spec — is accepted, not
rejected: the scanner stores `value` into the values map under the spec's
name and records the name as seen, and leaves the flags map unchanged, so
`flag(name)` stays `false` unless set elsewhere. -/
theorem C2_inline_flag_behavior (active : List Arg) (st : ScanState) (tok : String)
    (ds : List Char) (k v : String) (a : Arg) (rest : List String)
    (hdata : tok.data = '-' :: '-' :: ds)
    (hsplit : splitOnceEq (stripLongDashes tok) = some (k, v))
    (hfind : List.find? (fun b => b.long == some k) active = some a)
    (_hflag : a.arg_type = ArgType.flag) :
    scanTokens active st (tok :: rest)
      = scanTokens active
          { st with values := insertS st.values a.name v,
                    seen_args := st.seen_args ++ [a.name] } rest ∧
    ({ st with values := insertS st.values a.name v,
               seen_args := st.seen_args ++ [a.name] } : ScanState).flags = st.flags := by
  constructor
  · rw [scanTokens]
    simp only [hdata, hsplit, hfind]
  · rfl

/-- C2 witness: the Flag `verbose` fed the inline token `--verbose=x`. -/
theorem C2_inline_flag_behavior_witness :
    scanTokens [Arg.new "verbose"] initState ["--verbose=x"]
      = scanTokens [Arg.new "verbose"]
          { initState with
              values := insertS initState.values (Arg.new "verbose").name "x",
              seen_args := initState.seen_args ++ [(Arg.new "verbose").name] } [] :=
  (C2_inline_flag_behavior [Arg.new "verbose"] initState "--verbose=x"
    ("verbose=x".data) "verbose" "x" (Arg.new "verbose") [] rfl rfl rfl rfl).1

/-- C3 (amended): the final seen set is exactly the scan-phase seen names,
extended by the names of sorted positional specs whose raw token was
present, and by the Variadic name when the tail is nonempty.  Default
substitution — positional (assignment phase) or Option/Flag (validation
phase) — never adds a name to the seen set. -/
theorem C3_seen_set_exact (cmd : Command) (toks : List String) (p : ParsedArgs)
    (seen : List String) (h : cmd.parseFull toks = .ok (p, seen)) :
    ∃ st, scanTokens (cmd.activeArgs toks) initState toks = .ok st ∧
      seen = (assignVariadic (cmd.activeArgs toks)
        (sortPositionals (cmd.activeArgs toks)).length st.positional_raw
        (st.seen_args ++ assignedPosNames (sortPositionals (cmd.activeArgs toks))
          st.positional_raw)).2 := by
  obtain ⟨st, pos, vals, seen1, hscan, hassign, hseeneq, _⟩ := parseFull_ok_inv h
  refine ⟨st, hscan, ?_⟩
  rw [hseeneq, assignPositionals_seen _ _ _ _ _ _ _ _ hassign]

/-- The required-Option command used to witness C3's amended claim. -/
def cmdC3w : Command :=
  (Command.new "app").addArg
    ((((Arg.new "output").takesValue.withLong "output").withDefaultValue
      "out.txt").withRequired true)

/-- C3 witness: a parse that materializes a default has that name absent
from the (empty) seen set, which the characterization computes exactly. -/
theorem C3_seen_set_exact_witness :
    ∃ st, scanTokens (cmdC3w.activeArgs []) initState [] = .ok st ∧
      ([] : List String) = (assignVariadic (cmdC3w.activeArgs [])
        (sortPositionals (cmdC3w.activeArgs [])).length st.positional_raw
        (st.seen_args ++ assignedPosNames (sortPositionals (cmdC3w.activeArgs []))
          st.positional_raw)).2 :=
  C3_seen_set_exact cmdC3w [] ⟨[("output", "out.txt")], [], [], []⟩ [] rfl

/-- C6 (amended): whenever the scanner encounters a long-form `--name` (no
separator) or short-form `-c` token resolving to an active Option spec and
NO token follows, it fails with the missing-option-value error naming the
alias; when a token follows, the Option consumes exactly that next token as
its value and scanning continues after it.  (The original universal claim
over token lists fails: an earlier Option can consume the final token as a
value — see the counterexample.) -/
theorem C6_option_value_consumption :
    (∀ (active : List Arg) (st : ScanState) (tok : String) (ds : List Char) (a : Arg),
      tok.data = '-' :: '-' :: ds →
      splitOnceEq (stripLongDashes tok) = none →
      List.find? (fun b => b.long == some (stripLongDashes tok)) active = some a →
      a.arg_type = ArgType.option →
      scanTokens active st [tok] = .error (.missingValueLong (stripLongDashes tok)) ∧
      ∀ (v : String) (rest : List String),
        scanTokens active st (tok :: v :: rest)
          = scanTokens active
              { st with values := insertS st.values a.name v,
                        seen_args := st.seen_args ++ [a.name] } rest) ∧
    (∀ (active : List Arg) (st : ScanState) (tok : String) (c : Char) (cs : List Char)
      (a : Arg),
      tok.data = '-' :: c :: cs → c ≠ '-' →
      List.find? (fun b => b.short == some c) active = some a →
      a.arg_type = ArgType.option →
      scanTokens active st [tok] = .error (.missingValueShort c) ∧
      ∀ (v : String) (rest : List String),
        scanTokens active st (tok :: v :: rest)
          = scanTokens active
              { st with values := insertS st.values a.name v,
                        seen_args := st.seen_args ++ [a.name] } rest) := by
  constructor
  · intro active st tok ds a hdata hsplit hfind hopt
    constructor
    · rw [scanTokens]
      simp only [hdata, hsplit, hfind, hopt]
    · intro v rest
      rw [scanTokens]
      simp only [hdata, hsplit, hfind, hopt]
  · intro active st tok c cs a hdata hc hfind hopt
    constructor
    · rw [scanTokens]
      simp only [hdata, hc, hfind, hopt]
    · intro v rest
      rw [scanTokens]
      simp only [hdata, hc, hfind, hopt]

/-- C6 witness: a lone `--o` referencing the Option `o` errors; with a
following token the Option consumes it. -/
theorem C6_option_value_consumption_witness :
    scanTokens [(Arg.new "o").takesValue] initState ["--o"]
      = .error (.missingValueLong "o") ∧
    scanTokens [(Arg.new "o").takesValue] initState ["--o", "val"]
      = .ok ⟨[("o", "val")], [], [], ["o"]⟩ := by
  have h := C6_option_value_consumption.1 [(Arg.new "o").takesValue] initState "--o" ['o']
    ((Arg.new "o").takesValue) rfl rfl rfl rfl
  refine ⟨h.1, ?_⟩
  rw [h.2 "val" []]
  rfl

/-- C7 (amended): the buffer entries past the count of declared positional
specs go, in order, into the Variadic tail when a Variadic spec exists
(`variadic = drop count buffer`); when none exists the variadic output is
empty; and provided every declared positional index is below that count,
the entries past the count have no effect on positional assignment at all
(assignment over the truncated buffer is identical), so they appear in no
output and cause no error.  (Without that index proviso an excess entry CAN
be read into the positional output — see the counterexample.) -/
theorem C7_variadic_excess (cmd : Command) (toks : List String) (p : ParsedArgs)
    (seen : List String) (st : ScanState)
    (h : cmd.parseFull toks = .ok (p, seen))
    (hscan : scanTokens (cmd.activeArgs toks) initState toks = .ok st) :
    ((∃ a ∈ cmd.activeArgs toks, a.isVariadicB = true) →
      p.variadic = st.positional_raw.drop (sortPositionals (cmd.activeArgs toks)).length) ∧
    ((∀ a ∈ cmd.activeArgs toks, a.isVariadicB = false) → p.variadic = []) ∧
    ((∀ a ∈ sortPositionals (cmd.activeArgs toks),
        posSortKey a < (sortPositionals (cmd.activeArgs toks)).length) →
      assignPositionals (sortPositionals (cmd.activeArgs toks))
        (st.positional_raw.take (sortPositionals (cmd.activeArgs toks)).length)
        [] st.values st.seen_args
      = assignPositionals (sortPositionals (cmd.activeArgs toks))
        st.positional_raw [] st.values st.seen_args) := by
  obtain ⟨st2, pos, vals, seen1, hscan2, hassign, hseeneq, hcheck, vals2, flags2, happly, hp⟩ :=
    parseFull_ok_inv h
  rw [hscan] at hscan2
  injection hscan2 with hst
  subst hst
  subst hp
  refine ⟨?_, ?_, ?_⟩
  · rintro ⟨a, ha, hv⟩
    show (assignVariadic (cmd.activeArgs toks)
      (sortPositionals (cmd.activeArgs toks)).length st.positional_raw seen1).1 = _
    unfold assignVariadic
    cases hfind : List.find? Arg.isVariadicB (cmd.activeArgs toks) with
    | some vdef => rfl
    | none =>
      rw [List.find?_eq_none] at hfind
      exact absurd hv (by simpa using hfind a ha)
  · intro hall
    show (assignVariadic (cmd.activeArgs toks)
      (sortPositionals (cmd.activeArgs toks)).length st.positional_raw seen1).1 = []
    unfold assignVariadic
    cases hfind : List.find? Arg.isVariadicB (cmd.activeArgs toks) with
    | some vdef =>
      have hp2 := List.find?_some hfind
      have hmem2 := List.mem_of_find?_eq_some hfind
      rw [hall vdef hmem2] at hp2
      exact Bool.noConfusion hp2
    | none => rfl
  · intro hidx
    apply assignPositionals_take
    intro a ha i hai
    have h2 := hidx a ha
    rw [posSortKey, hai] at h2
    exact h2

/-- The positional-plus-variadic command used to witness C7's amended
claim. -/
def cmdC7w : Command :=
  ((Command.new "app").addArg (Arg.positional "a" 0)).addArg (Arg.variadic "rest")

/-- C7 witness: with one positional of index 0 and a Variadic spec, tokens
past the first land in the variadic tail. -/
theorem C7_variadic_excess_witness :
    (⟨[("a", "x")], [], ["x"], ["y", "z"]⟩ : ParsedArgs).variadic
      = (⟨[], [], ["x", "y", "z"], []⟩ : ScanState).positional_raw.drop
          (sortPositionals (cmdC7w.activeArgs ["x", "y", "z"])).length := by
  have hact : cmdC7w.activeArgs ["x", "y", "z"]
      = [Arg.positional "a" 0, Arg.variadic "rest"] := rfl
  refine (C7_variadic_excess cmdC7w ["x", "y", "z"]
    ⟨[("a", "x")], [], ["x"], ["y", "z"]⟩ ["a", "rest"]
    ⟨[], [], ["x", "y", "z"], []⟩ rfl rfl).1 ⟨Arg.variadic "rest", ?_, rfl⟩
  rw [hact]
  exact List.mem_cons_of_mem _ (List.mem_singleton.mpr rfl)

/-- C8 (amended): an active spec in the seen set with both a missing
dependency and a present conflict makes the parse fail with the dependency
error naming the spec and its first missing dependency — not the Conflict
error — PROVIDED no earlier active spec in the seen set has a dependency or
conflict violation of its own (the loop reports the first violating spec,
whatever its kind; see the counterexample). -/
theorem C8_dependency_before_conflict (cmd : Command) (toks : List String)
    (st : ScanState) (pos : List String) (vals : List (String × String))
    (seen1 vr seen2 : List String) (pre post : List Arg) (a : Arg) (dep : String)
    (hscan : scanTokens (cmd.activeArgs toks) initState toks = .ok st)
    (hassign : assignPositionals (sortPositionals (cmd.activeArgs toks)) st.positional_raw []
      st.values st.seen_args = .ok (pos, vals, seen1))
    (hvar : assignVariadic (cmd.activeArgs toks)
      (sortPositionals (cmd.activeArgs toks)).length st.positional_raw seen1 = (vr, seen2))
    (hact : cmd.activeArgs toks = pre ++ a :: post)
    (hpre : ∀ b ∈ pre, checkArgOne b seen2 = none)
    (hseen : seen2.contains a.name = true)
    (hdep : a.depends_on.find? (fun d => !(seen2.contains d)) = some dep)
    (_hconf : ∃ c2 ∈ a.conflicts_with, seen2.contains c2 = true) :
    cmd.parseFull toks = .error (.dependsError a.name dep) := by
  have hone : checkArgOne a seen2 = some (.dependsError a.name dep) := by
    simp only [checkArgOne, hseen, hdep]
    rfl
  have hcheck2 : checkDepsConflicts (cmd.activeArgs toks) seen2
      = some (.dependsError a.name dep) := by
    rw [hact]
    clear hact _hconf hassign hscan hvar
    revert hpre
    induction pre with
    | nil =>
      intro _
      simp only [List.nil_append, checkDepsConflicts, hone]
    | cons b bs ih =>
      intro hpre
      simp only [List.cons_append, checkDepsConflicts,
        hpre b (List.mem_cons_self b bs)]
      exact ih (fun b2 hb2 => hpre b2 (List.mem_cons_of_mem b hb2))
  unfold Command.parseFull
  simp only [hscan, hassign, hvar, hcheck2]

/-- The command used to witness C8's amended claim: `C` depends on the
absent `D` and conflicts with the present `B`, and is the first spec the
validator examines. -/
def cmdC8w : Command :=
  ((Command.new "app").addArg
    (((Arg.new "C").addDependsOn "D").addConflictsWith "B")).addArg (Arg.new "B")

/-- C8 witness: the double-violation spec `C`, first in the check order,
reports its dependency error, not its conflict. -/
theorem C8_dependency_before_conflict_witness :
    cmdC8w.parseFull ["--C", "--B"] = .error (.dependsError "C" "D") := by
  refine C8_dependency_before_conflict cmdC8w ["--C", "--B"]
    ⟨[], [("B", true), ("C", true)], [], ["C", "B"]⟩ [] [] ["C", "B"] [] ["C", "B"]
    [] [Arg.new "B"] (((Arg.new "C").addDependsOn "D").addConflictsWith "B") "D"
    rfl rfl rfl rfl ?_ rfl rfl ⟨"B", ?_, rfl⟩
  · intro b hb
    exact absurd hb (List.not_mem_nil b)
  · rw [show (((Arg.new "C").addDependsOn "D").addConflictsWith "B").conflicts_with
      = ["B"] from rfl]
    exact List.mem_singleton.mpr rfl

/-- C10: the allowed-values constraint is enforced only when storing a
positional token: the scanner (which handles the long, inline and short
option forms) can never produce the InvalidValue error, and whenever a parse
fails with InvalidValue the offending value is the positional-buffer entry
at the index of a declared positional spec whose nonempty possible-values
list excludes it. -/
theorem C10_invalid_value_only_positional :
    (∀ (active : List Arg) (st : ScanState) (toks : List String) (v n : String)
      (pvs : List String),
      scanTokens active st toks ≠ .error (.invalidValue v n pvs)) ∧
    (∀ (cmd : Command) (toks : List String) (v n : String) (pvs : List String),
      cmd.parseFull toks = .error (.invalidValue v n pvs) →
      ∃ st, scanTokens (cmd.activeArgs toks) initState toks = .ok st ∧
        ∃ ad ∈ sortPositionals (cmd.activeArgs toks), ∃ i,
          ad.arg_type = ArgType.positional i ∧ st.positional_raw.get? i = some v ∧
          ad.name = n ∧ ad.possible_values = pvs ∧ pvs.isEmpty = false ∧
          pvs.contains v = false) := by
  have hscan_never : ∀ (active : List Arg) (st : ScanState) (toks : List String)
      (v n : String) (pvs : List String),
      scanTokens active st toks ≠ .error (.invalidValue v n pvs) := by
    intro active st toks v n pvs hcon
    have h2 := scan_error_fromScan active st toks _ hcon
    exact Bool.noConfusion h2
  refine ⟨hscan_never, ?_⟩
  intro cmd toks v n pvs h
  unfold Command.parseFull at h
  cases hscan : scanTokens (cmd.activeArgs toks) initState toks with
  | error e =>
    simp only [hscan] at h
    injection h with h2
    subst h2
    exact absurd hscan (hscan_never (cmd.activeArgs toks) initState toks v n pvs)
  | ok st =>
    simp only [hscan] at h
    cases hassign : assignPositionals (sortPositionals (cmd.activeArgs toks))
        st.positional_raw [] st.values st.seen_args with
    | error e =>
      simp only [hassign] at h
      injection h with h2
      subst h2
      obtain ⟨ad, hmem, hrest⟩ := assignPositionals_invalid_inv _ _ _ _ _ _ _ _ hassign
      exact ⟨st, rfl, ad, hmem, hrest⟩
    | ok triple =>
      obtain ⟨pos, vals, seen1⟩ := triple
      simp only [hassign] at h
      rcases hvar : assignVariadic (cmd.activeArgs toks)
          (sortPositionals (cmd.activeArgs toks)).length st.positional_raw seen1 with
        ⟨vr, seen2⟩
      simp only [hvar] at h
      cases hcheck : checkDepsConflicts (cmd.activeArgs toks) seen2 with
      | some e =>
        simp only [hcheck] at h
        injection h with h2
        subst h2
        rcases checkDeps_error_shape _ _ _ hcheck with ⟨n2, d2, he⟩ | ⟨n2, c2, he⟩ <;>
          exact ParseError.noConfusion he
      | none =>
        simp only [hcheck] at h
        cases happly : applyRequiredDefaults (cmd.activeArgs toks) seen2 vals st.flags with
        | error e =>
          simp only [happly] at h
          injection h with h2
          subst h2
          obtain ⟨n2, he⟩ := applyRequired_error_shape _ _ _ _ _ happly
          exact ParseError.noConfusion he
        | ok pairr =>
          obtain ⟨vals2, flags2⟩ := pairr
          simp only [happly] at h
          exact Except.noConfusion h

/-- The command used to witness C10: a positional with allowed values
`get`/`set` rejects `frob` via positional assignment. -/
def cmdC10w : Command :=
  (Command.new "app").addArg
    ((Arg.positional "action" 0).withPossibleValues ["get", "set"])

/-- C10 witness: the InvalidValue failure for `frob` is traced to the
positional spec `action`. -/
theorem C10_invalid_value_only_positional_witness :
    ∃ st, scanTokens (cmdC10w.activeArgs ["frob"]) initState ["frob"] = .ok st ∧
      ∃ ad ∈ sortPositionals (cmdC10w.activeArgs ["frob"]), ∃ i,
        ad.arg_type = ArgType.positional i ∧ st.positional_raw.get? i = some "frob" ∧
        ad.name = "action" ∧ ad.possible_values = ["get", "set"] ∧
        (["get", "set"] : List String).isEmpty = false ∧
        (["get", "set"] : List String).contains "frob" = false :=
  C10_invalid_value_only_positional.2 cmdC10w ["frob"] "frob" "action" ["get", "set"] rfl

end Luhcli
